import Mathlib

/-!
# Verification of the library-checker test-case generators

This file embeds the two generator programs of the repository
(`datastructure/vertex_add_path_sum/gen/line.cpp` and
`math/division_of_big_integers/gen/medium.cpp`) as Lean functions and
proves the specified properties about them.

The shared `Random` engine (`random.h`) and the per-problem limit
constants (`params.h`) are not part of the given sources; the engine is
modelled from the spec's contract (§4.1): a stateful object created from
a seed, offering `uniform lo hi` (an inclusive uniform draw, failing when
`lo > hi`, the spec's `InvalidRangeError`) and `perm n` (a uniformly
random permutation of `{0, …, n−1}`).  The raw engine is represented as
an arbitrary stream `Nat → Nat` of pseudo-random outputs together with a
position; all structural theorems are proved for every stream, hence for
whatever concrete engine `random.h` implements.

C++ `int`/`long long` values are embedded as `Int`; the fallible spots of
the original programs (a `uniform` call with `lo > hi`, out-of-bounds
`vector` indexing, and `vector` construction from a negative size, which
converts to an enormous `size_t` and makes the constructor throw
`length_error`) are embedded as `Option` failures.
-/

namespace LCGen

/-- Modelled from the spec (§4.1, Random Source; `random.h` is not among
the given sources): the engine state is a stream of raw pseudo-random
naturals plus the position of the next draw. -/
structure Random where
  stream : Nat → Nat
  pos : Nat

/-- Modelled from the spec: a fresh engine seeded with a raw stream. -/
def Random.init (f : Nat → Nat) : Random :=
  ⟨f, 0⟩

/-- Modelled from the spec (§4.1): `uniform lo hi` returns an integer in
`[lo, hi]` (here: `lo` plus the next raw draw reduced mod the width) and
advances the state; it fails (`InvalidRangeError`) when `lo > hi`. -/
def uniform (lo hi : Int) (r : Random) : Option (Int × Random) :=
  if lo ≤ hi then
    some (lo + (r.stream r.pos : Int) % (hi - lo + 1), ⟨r.stream, r.pos + 1⟩)
  else none

/-- Inversion for `uniform`: a successful draw respects its inclusive
bounds (stated as a `def` so it is available to later definitions). -/
def uniform_inv {lo hi : Int} {r : Random} {x : Int} {r' : Random}
    (h : uniform lo hi r = some (x, r')) :
    lo ≤ hi ∧ lo ≤ x ∧ x ≤ hi := by
  unfold uniform at h
  split at h
  · rename_i hle
    simp only [Option.some.injEq, Prod.mk.injEq] at h
    obtain ⟨rfl, -⟩ := h
    have h0 := Int.emod_nonneg (r.stream r.pos : Int) (show hi - lo + 1 ≠ 0 by omega)
    have h1 := Int.emod_lt_of_pos (r.stream r.pos : Int) (show (0 : Int) < hi - lo + 1 by omega)
    omega
  · exact absurd h (by simp)

/-- Modelled from the spec (§4.1): one selection step of `perm`; the
`fuel` argument is the length of the remaining pool.  Each step draws a
uniform index into the pool, moves that element to the output and
recurses on the rest. -/
def permFrom (fuel : Nat) (l : List Int) (r : Random) :
    Option (List Int × Random) :=
  match fuel with
  | 0 => some ([], r)
  | fuel + 1 =>
    if l.length = 0 then some ([], r)
    else
      (uniform 0 ((l.length : Int) - 1) r).bind fun jr =>
        (permFrom fuel (l.eraseIdx jr.1.toNat) jr.2).bind fun pr =>
          some (l.getD jr.1.toNat 0 :: pr.1, pr.2)

/-- Modelled from the spec (§4.1): `perm n` produces a uniformly random
permutation of `{0, …, n−1}` (as `Int` values, matching `perm<int>`). -/
def Random.perm (n : Nat) (r : Random) : Option (List Int × Random) :=
  permFrom n ((List.range n).map fun i : Nat => (i : Int)) r

/-- C++ `vector` subscripting with an `int` index (used for
`vector{10, 300, 10000}[seed % 3]`): an index outside `[0, size)`
converts to an out-of-range `size_t` and the access is undefined,
embedded as `none`. -/
def cppIndex (l : List Int) (i : Int) : Option Int :=
  if h : 0 ≤ i ∧ i.toNat < l.length then some (l.get ⟨i.toNat, h.2⟩) else none

/-- C++ `vector<int> u(k)` for an `int` expression `k` (used as
`vector<int> u(n - 1)`): a negative `k` converts to a `size_t` above
`max_size`, so the constructor throws `length_error`; otherwise the
vector holds `k` zeros. -/
def mkVec (k : Int) : Option (List Int) :=
  if 0 ≤ k then some (List.replicate k.toNat 0) else none

/-! ## `math/division_of_big_integers/gen/medium.cpp` -/

/-- The digit positions `i ≥ 1` of a digit string: each draws
`uniform 0 9` (the C++ loop body with `lower = 0`). -/
def genDigitsRest (count : Nat) (r : Random) : Option (List Int × Random) :=
  match count with
  | 0 => some ([], r)
  | k + 1 =>
    (uniform 0 9 r).bind fun dr =>
      (genDigitsRest k dr.2).bind fun dsr =>
        some (dr.1 :: dsr.1, dsr.2)

/-- A digit string whose position `0` draws `uniform lo0 9` and whose
later positions draw `uniform 0 9`: the digit loops of `medium.cpp`,
with `lo0` the value of `lower` at `i = 0`. -/
def genDigits (lo0 : Int) (len : Nat) (r : Random) :
    Option (List Int × Random) :=
  match len with
  | 0 => some ([], r)
  | k + 1 =>
    (uniform lo0 9 r).bind fun dr =>
      (genDigitsRest k dr.2).bind fun dsr =>
        some (dr.1 :: dsr.1, dsr.2)

/-- Inversion for `genDigitsRest`: the produced string has exactly the
requested length. -/
def genDigitsRest_inv : ∀ {count : Nat} {r : Random} {ds : List Int}
    {r' : Random}, genDigitsRest count r = some (ds, r') →
    ds.length = count := by
  intro count
  induction count with
  | zero =>
    intro r ds r' h
    simp only [genDigitsRest, Option.some.injEq, Prod.mk.injEq] at h
    obtain ⟨rfl, -⟩ := h
    rfl
  | succ k ih =>
    intro r ds r' h
    rw [genDigitsRest, Option.bind_eq_some] at h
    obtain ⟨dr, hd, h⟩ := h
    rw [Option.bind_eq_some] at h
    obtain ⟨dsr, hds, h⟩ := h
    simp only [Option.some.injEq, Prod.mk.injEq] at h
    obtain ⟨rfl, -⟩ := h
    simp [ih hds]

/-- Inversion for `genDigits`: the produced string has the requested
length, and when it is nonempty its leading digit is at least `lo0`. -/
def genDigits_inv : ∀ {lo0 : Int} {len : Nat} {r : Random} {s : List Int}
    {r' : Random}, genDigits lo0 len r = some (s, r') →
    s.length = len ∧ (1 ≤ len → lo0 ≤ s.headD 0) := by
  intro lo0 len r s r' h
  cases len with
  | zero =>
    simp only [genDigits, Option.some.injEq, Prod.mk.injEq] at h
    obtain ⟨rfl, -⟩ := h
    simp
  | succ k =>
    rw [genDigits, Option.bind_eq_some] at h
    obtain ⟨⟨d, r1⟩, hd, h⟩ := h
    rw [Option.bind_eq_some] at h
    obtain ⟨dsr, hds, h⟩ := h
    simp only [Option.some.injEq, Prod.mk.injEq] at h
    obtain ⟨rfl, -⟩ := h
    refine ⟨by simp [genDigitsRest_inv hds], fun _ => ?_⟩
    exact (uniform_inv hd).2.1

/-- One iteration of the `while (true)` loop of `medium.cpp` up to the
budget test: draw `alen` and `blen` in `[1, upper]`, draw the biased
coin `uniform(0, 9)` and swap the lengths when it is non-zero and
`alen < blen`, then synthesize the digit strings `sa` (leading digit in
`[1, 9]` unless `alen = 1`) and `sb` (leading digit always in
`[1, 9]`). -/
def digitIter (upper : Int) (r : Random) :
    Option (List Int × List Int × Random) :=
  (uniform 1 upper r).bind fun ar =>
    (uniform 1 upper ar.2).bind fun br =>
      (uniform 0 9 br.2).bind fun cr =>
        let alen := if cr.1 ≠ 0 ∧ ar.1 < br.1 then br.1 else ar.1
        let blen := if cr.1 ≠ 0 ∧ ar.1 < br.1 then ar.1 else br.1
        (genDigits (if alen = 1 then 0 else 1) alen.toNat cr.2).bind fun sar =>
          (genDigits 1 blen.toNat sar.2).bind fun sbr =>
            some (sar.1, sbr.1, sbr.2)

/-- Inversion for `digitIter`: a successful iteration yields two
nonempty digit strings, the first leading-zero-free unless it is a
single digit, the second always leading-zero-free. -/
def digitIter_inv : ∀ {upper : Int} {r : Random} {sa sb : List Int}
    {r' : Random}, digitIter upper r = some (sa, sb, r') →
    1 ≤ sa.length ∧ 1 ≤ sb.length ∧ (2 ≤ sa.length → 1 ≤ sa.headD 0) ∧
      1 ≤ sb.headD 0 := by
  intro upper r sa sb r' h
  rw [digitIter, Option.bind_eq_some] at h
  obtain ⟨⟨alen0, r1⟩, ha, h⟩ := h
  rw [Option.bind_eq_some] at h
  obtain ⟨⟨blen0, r2⟩, hb, h⟩ := h
  rw [Option.bind_eq_some] at h
  obtain ⟨⟨coin, r3⟩, hc, h⟩ := h
  simp only [Option.bind_eq_some] at h
  obtain ⟨⟨sa0, r4⟩, hsa, h⟩ := h
  obtain ⟨⟨sb0, r5⟩, hsb, h⟩ := h
  simp only [Option.some.injEq, Prod.mk.injEq] at h
  obtain ⟨rfl, rfl, -⟩ := h
  have ha1 : 1 ≤ alen0 := (uniform_inv ha).2.1
  have hb1 : 1 ≤ blen0 := (uniform_inv hb).2.1
  obtain ⟨hlen_a, hhead_a⟩ := genDigits_inv hsa
  obtain ⟨hlen_b, hhead_b⟩ := genDigits_inv hsb
  have halen : 1 ≤ (if coin ≠ 0 ∧ alen0 < blen0 then blen0 else alen0) := by
    split <;> omega
  have hblen : 1 ≤ (if coin ≠ 0 ∧ alen0 < blen0 then alen0 else blen0) := by
    split <;> omega
  refine ⟨by omega, by omega, fun h2 => ?_, hhead_b (by omega)⟩
  have hne : ¬ (if coin ≠ 0 ∧ alen0 < blen0 then blen0 else alen0) = 1 := by
    omega
  rw [if_neg hne] at hhead_a
  exact hhead_a (by omega)

/-- The `while (true)` loop of `medium.cpp`: run `digitIter`, add the
candidate's combined length to the running total `lsum`, stop (returning
the pairs accepted so far, the candidate discarded whole) as soon as
`lsum` exceeds the budget `SUM`, and otherwise accept the pair and
continue. -/
def digitLoop (SUM upper : Int) (A B : List (List Int)) (lsum : Int)
    (r : Random) : Option (List (List Int) × List (List Int)) :=
  match h : digitIter upper r with
  | none => none
  | some (sa, sb, r') =>
    if SUM < lsum + sa.length + sb.length then some (A, B)
    else digitLoop SUM upper (A ++ [sa]) (B ++ [sb])
      (lsum + sa.length + sb.length) r'
termination_by (SUM + 1 - lsum).toNat
decreasing_by
  obtain ⟨hsa, hsb, -, -⟩ := digitIter_inv h
  omega

/-- The whole generation phase of `medium.cpp` for a given tier bound
`upper` and budget `SUM`, starting from an engine stream `f` (the
lists `A` and `B` start empty and `lsum` starts at `0`). -/
def digitGen (f : Nat → Nat) (upper SUM : Int) :
    Option (List (List Int) × List (List Int)) :=
  digitLoop SUM upper [] [] 0 (Random.init f)

/-- The tier table lookup of `medium.cpp`:
`vector{10, 300, 10000}[seed % 3]`, with C++ truncated `%` (`Int.tmod`)
and C++ `vector` subscripting. -/
def digitTier (seed : Int) : Option Int :=
  cppIndex [10, 300, 10000] (Int.tmod seed 3)

/-- Modelled from the spec (§4.1, determinism contract): a concrete raw
engine stream as a deterministic function of the seed.  Any other
deterministic stream would do; no theorem below depends on its shape. -/
def specEngine (seed : Int) : Nat → Nat :=
  fun k => (seed.natAbs * 48271 + k * 16807) % 2147483647

/-- The whole of `medium.cpp` for a seed: engine from `seed + 12345`,
tier from `seed % 3`, then the generation loop.  The emitted output is
the pair count `(A.length)` followed by the pairs, determined by the
returned lists. -/
def digitMain (seed SUM : Int) :
    Option (List (List Int) × List (List Int)) :=
  match digitTier seed with
  | none => none
  | some upper => digitGen (specEngine (seed + 12345)) upper SUM

/-- The combined character count of the accepted pairs:
`Σ |A_i| + Σ |B_i|`. -/
def charSum (A B : List (List Int)) : Nat :=
  (A.map List.length).sum + (B.map List.length).sum

/-! ## `datastructure/vertex_add_path_sum/gen/line.cpp` -/

/-- The printed instance of `line.cpp`: the first line `n q`, the `n`
initial vertex values, the `n − 1` edge lines `u v` and the `q` query
lines (a query is the triple of printed integers: `(0, p, x)` for an
update, `(1, u, v)` for a path query). -/
structure TreeOut where
  n : Int
  q : Int
  vals : List Int
  edges : List (Int × Int)
  queries : List (Int × Int × Int)
deriving Repr, DecidableEq

/-- The initial-value loop of `line.cpp`: `count` draws of
`uniform 0 amax`. -/
def drawVals (amax : Int) (count : Nat) (r : Random) :
    Option (List Int × Random) :=
  match count with
  | 0 => some ([], r)
  | k + 1 =>
    (uniform 0 amax r).bind fun xr =>
      (drawVals amax k xr.2).bind fun lr =>
        some (xr.1 :: lr.1, lr.2)

/-- The query loop of `line.cpp`: each of `count` iterations draws
`t = uniform 0 1`; when `t = 0` it draws `p ∈ [0, n−1]` and
`x ∈ [0, amax]` (an update), otherwise `u, v ∈ [0, n−1]` (a path
query). -/
def drawQueries (n amax : Int) (count : Nat) (r : Random) :
    Option (List (Int × Int × Int) × Random) :=
  match count with
  | 0 => some ([], r)
  | k + 1 =>
    (uniform 0 1 r).bind fun tr =>
      if tr.1 = 0 then
        (uniform 0 (n - 1) tr.2).bind fun pr =>
          (uniform 0 amax pr.2).bind fun xr =>
            (drawQueries n amax k xr.2).bind fun lr =>
              some ((tr.1, pr.1, xr.1) :: lr.1, lr.2)
      else
        (uniform 0 (n - 1) tr.2).bind fun ur =>
          (uniform 0 (n - 1) ur.2).bind fun vr =>
            (drawQueries n amax k vr.2).bind fun lr =>
              some ((tr.1, ur.1, vr.1) :: lr.1, lr.2)

/-- The whole of `line.cpp` for an engine stream `f` and the limit
constants `n = q = N_AND_Q_MAX` and `amax = A_AND_X_MAX`: draw the `n`
initial values, build the vectors `u`, `v` of size `n - 1` with
`u[i] = i`, `v[i] = i + 1`, draw a permutation of size `n` and relabel
both endpoint vectors through it, then draw the `q` queries.  Besides
the printed instance, the drawn permutation is returned (the program
keeps it local; returning it lets the theorems speak about it). -/
def treeGen (f : Nat → Nat) (n amax : Int) :
    Option (TreeOut × List Int) :=
  let r := Random.init f
  (drawVals amax n.toNat r).bind fun valsr =>
    (mkVec (n - 1)).bind fun _ =>
      (mkVec (n - 1)).bind fun _ =>
        let u0 := (List.range (n - 1).toNat).map fun i : Nat => (i : Int)
        let v0 := (List.range (n - 1).toNat).map fun i : Nat => (i : Int) + 1
        (Random.perm n.toNat valsr.2).bind fun permr =>
          let p := permr.1
          let u := u0.map fun x => p.getD x.toNat 0
          let v := v0.map fun x => p.getD x.toNat 0
          (drawQueries n amax n.toNat permr.2).bind fun qsr =>
            some ({ n := n, q := n, vals := valsr.1, edges := u.zip v,
                    queries := qsr.1 }, p)

/-- The whole of `line.cpp` for a seed: `Random(seed)` is modelled as
the engine stream `specEngine seed` (the seed is used directly, with no
offset). -/
def treeMain (seed n amax : Int) : Option (TreeOut × List Int) :=
  treeGen (specEngine seed) n amax

/-- The undirected graph on `{0, …, n−1}` described by an emitted edge
list: `a` and `b` are adjacent when some edge line joins them (in
either direction). -/
def edgeGraph (n : Nat) (E : List (Int × Int)) : SimpleGraph (Fin n) :=
  SimpleGraph.fromRel fun a b => ((a.val : Int), (b.val : Int)) ∈ E

/-! ## Helper lemmas: the Random Source -/

theorem uniform_some {lo hi : Int} (r : Random) (h : lo ≤ hi) :
    ∃ x r', uniform lo hi r = some (x, r') :=
  ⟨lo + (r.stream r.pos : Int) % (hi - lo + 1), ⟨r.stream, r.pos + 1⟩,
    by rw [uniform, if_pos h]⟩

theorem getD_cons_eraseIdx_perm :
    ∀ (l : List Int) (j : Nat), j < l.length →
      l.Perm (l.getD j 0 :: l.eraseIdx j) := by
  intro l
  induction l with
  | nil => intro j hj; simp at hj
  | cons a as ih =>
    intro j hj
    cases j with
    | zero => simp
    | succ j =>
      simp only [List.getD_cons_succ, List.eraseIdx_cons_succ]
      have h1 := ih j (by simpa using hj)
      exact (h1.cons a).trans (List.Perm.swap (as.getD j 0) a (as.eraseIdx j))

theorem permFrom_spec :
    ∀ (fuel : Nat) (l : List Int) (r : Random) (p : List Int) (r2 : Random),
      l.length = fuel → permFrom fuel l r = some (p, r2) → p.Perm l := by
  intro fuel
  induction fuel with
  | zero =>
    intro l r p r2 hlen h
    simp only [permFrom, Option.some.injEq, Prod.mk.injEq] at h
    obtain ⟨rfl, -⟩ := h
    have : l = [] := List.length_eq_zero.mp hlen
    simp [this]
  | succ fuel ih =>
    intro l r p r2 hlen h
    rw [permFrom, if_neg (by omega)] at h
    rw [Option.bind_eq_some] at h
    obtain ⟨⟨j, r1⟩, hj, h⟩ := h
    rw [Option.bind_eq_some] at h
    obtain ⟨⟨rest, rr⟩, hrest, h⟩ := h
    simp only [Option.some.injEq, Prod.mk.injEq] at h
    obtain ⟨rfl, -⟩ := h
    obtain ⟨-, hj0, hj1⟩ := uniform_inv hj
    have hjlt : j.toNat < l.length := by omega
    have herase : (l.eraseIdx j.toNat).length = fuel := by
      rw [List.length_eraseIdx_of_lt hjlt]; omega
    have hperm := ih _ _ _ _ herase hrest
    exact ((hperm.cons (l.getD j.toNat 0)).trans
      (getD_cons_eraseIdx_perm l j.toNat hjlt).symm)

theorem permFrom_isSome :
    ∀ (fuel : Nat) (l : List Int) (r : Random), l.length = fuel →
      ∃ p r2, permFrom fuel l r = some (p, r2) := by
  intro fuel
  induction fuel with
  | zero => intro l r _; exact ⟨[], r, rfl⟩
  | succ fuel ih =>
    intro l r hlen
    obtain ⟨j, r1, hj⟩ := uniform_some r (show (0 : Int) ≤ (l.length : Int) - 1 by omega)
    obtain ⟨-, hj0, hj1⟩ := uniform_inv hj
    have hjlt : j.toNat < l.length := by omega
    have herase : (l.eraseIdx j.toNat).length = fuel := by
      rw [List.length_eraseIdx_of_lt hjlt]; omega
    obtain ⟨p0, r2, hp0⟩ := ih _ r1 herase
    refine ⟨l.getD j.toNat 0 :: p0, r2, ?_⟩
    rw [permFrom, if_neg (by omega), hj]
    simp [hp0]

/-- The contract of the drawn permutation: a successful `perm n` call
yields a rearrangement of `0, …, n−1`. -/
theorem perm_spec {n : Nat} {r : Random} {p : List Int} {r2 : Random}
    (h : Random.perm n r = some (p, r2)) :
    p.Perm ((List.range n).map fun i : Nat => (i : Int)) :=
  permFrom_spec n _ r p r2 (by rw [List.length_map, List.length_range]) h

theorem perm_isSome (n : Nat) (r : Random) :
    ∃ p r2, Random.perm n r = some (p, r2) :=
  permFrom_isSome n _ r (by rw [List.length_map, List.length_range])

/-! ## Helper lemmas: the digit-pair generation loop -/

theorem digitLoop_eq_none {SUM upper : Int} {A B : List (List Int)}
    {lsum : Int} {r : Random} (h : digitIter upper r = none) :
    digitLoop SUM upper A B lsum r = none := by
  rw [digitLoop]
  split
  · rfl
  · rename_i sa sb r' heq
    rw [h] at heq
    cases heq

theorem digitLoop_eq_stop {SUM upper : Int} {A B : List (List Int)}
    {lsum : Int} {r : Random} {sa sb : List Int} {r' : Random}
    (h : digitIter upper r = some (sa, sb, r'))
    (hgt : SUM < lsum + sa.length + sb.length) :
    digitLoop SUM upper A B lsum r = some (A, B) := by
  rw [digitLoop]
  split
  · rename_i heq
    rw [h] at heq
    cases heq
  · rename_i sa0 sb0 r0 heq
    rw [h] at heq
    cases heq
    rw [if_pos hgt]

theorem digitLoop_eq_continue {SUM upper : Int} {A B : List (List Int)}
    {lsum : Int} {r : Random} {sa sb : List Int} {r' : Random}
    (h : digitIter upper r = some (sa, sb, r'))
    (hle : ¬ SUM < lsum + sa.length + sb.length) :
    digitLoop SUM upper A B lsum r =
      digitLoop SUM upper (A ++ [sa]) (B ++ [sb])
        (lsum + sa.length + sb.length) r' := by
  conv_lhs => rw [digitLoop]
  split
  · rename_i heq
    rw [h] at heq
    cases heq
  · rename_i sa0 sb0 r0 heq
    rw [h] at heq
    cases heq
    rw [if_neg hle]

theorem genDigitsRest_some :
    ∀ (count : Nat) (r : Random), ∃ ds r', genDigitsRest count r = some (ds, r') := by
  intro count
  induction count with
  | zero => intro r; exact ⟨[], r, rfl⟩
  | succ k ih =>
    intro r
    obtain ⟨d, r1, hd⟩ := uniform_some r (show (0 : Int) ≤ 9 by omega)
    obtain ⟨ds, r2, hds⟩ := ih r1
    refine ⟨d :: ds, r2, ?_⟩
    rw [genDigitsRest, hd]
    simp [hds]

theorem genDigits_some (lo0 : Int) (len : Nat) (r : Random) (h : lo0 ≤ 9) :
    ∃ s r', genDigits lo0 len r = some (s, r') := by
  cases len with
  | zero => exact ⟨[], r, rfl⟩
  | succ k =>
    obtain ⟨d, r1, hd⟩ := uniform_some r h
    obtain ⟨ds, r2, hds⟩ := genDigitsRest_some k r1
    refine ⟨d :: ds, r2, ?_⟩
    rw [genDigits, hd]
    simp [hds]

theorem digitIter_some (upper : Int) (hu : 1 ≤ upper) (r : Random) :
    ∃ sa sb r', digitIter upper r = some (sa, sb, r') := by
  obtain ⟨alen0, r1, ha⟩ := uniform_some r hu
  obtain ⟨blen0, r2, hb⟩ := uniform_some r1 hu
  obtain ⟨coin, r3, hc⟩ := uniform_some r2 (show (0 : Int) ≤ 9 by omega)
  obtain ⟨sa, r4, hsa⟩ := genDigits_some
    (if (if coin ≠ 0 ∧ alen0 < blen0 then blen0 else alen0) = 1 then 0 else 1)
    (if coin ≠ 0 ∧ alen0 < blen0 then blen0 else alen0).toNat r3
    (by split <;> omega)
  obtain ⟨sb, r5, hsb⟩ := genDigits_some 1
    (if coin ≠ 0 ∧ alen0 < blen0 then alen0 else blen0).toNat r4 (by omega)
  refine ⟨sa, sb, r5, ?_⟩
  rw [digitIter, ha]
  simp only [Option.some_bind]
  rw [hb]
  simp only [Option.some_bind]
  rw [hc]
  simp only [Option.some_bind]
  simp only [hsa, Option.some_bind]
  simp only [hsb, Option.some_bind]

theorem digitLoop_isSome (SUM upper : Int) (hu : 1 ≤ upper) :
    ∀ (A B : List (List Int)) (lsum : Int) (r : Random),
      ∃ A' B', digitLoop SUM upper A B lsum r = some (A', B') := by
  intro A B lsum r
  induction A, B, lsum, r using digitLoop.induct SUM upper with
  | case1 A B lsum r hiter =>
    obtain ⟨sa, sb, r', h⟩ := digitIter_some upper hu r
    rw [h] at hiter
    cases hiter
  | case2 A B lsum r sa sb r' hiter hgt =>
    exact ⟨A, B, digitLoop_eq_stop hiter hgt⟩
  | case3 A B lsum r sa sb r' hiter hle ih =>
    obtain ⟨A', B', hAB⟩ := ih
    exact ⟨A', B', (digitLoop_eq_continue hiter hle).trans hAB⟩

theorem charSum_nil : charSum [] [] = 0 := rfl

theorem charSum_cons (sa sb : List Int) (C D : List (List Int)) :
    charSum (sa :: C) (sb :: D) = sa.length + sb.length + charSum C D := by
  simp only [charSum, List.map_cons, List.sum_cons]
  omega

/-- The invariant carried through `digitLoop`: the result extends the
accumulators by pairs of nonempty digit strings, `A`-strings have no
leading zero unless single-digit, `B`-strings never have a leading
zero, and the running total (hence the budget) is respected. -/
theorem digitLoop_spec (SUM upper : Int) :
    ∀ (A B : List (List Int)) (lsum : Int) (r : Random)
      (A' B' : List (List Int)),
      digitLoop SUM upper A B lsum r = some (A', B') →
      ∃ C D : List (List Int),
        A' = A ++ C ∧ B' = B ++ D ∧ C.length = D.length ∧
        (∀ s ∈ C, 1 ≤ s.length ∧ (2 ≤ s.length → 1 ≤ s.headD 0)) ∧
        (∀ s ∈ D, 1 ≤ s.length ∧ 1 ≤ s.headD 0) ∧
        (lsum ≤ SUM → lsum + (charSum C D : Int) ≤ SUM) := by
  intro A B lsum r
  induction A, B, lsum, r using digitLoop.induct SUM upper with
  | case1 A B lsum r hiter =>
    intro A' B' hsome
    rw [digitLoop_eq_none hiter] at hsome
    cases hsome
  | case2 A B lsum r sa sb r' hiter hgt =>
    intro A' B' hsome
    rw [digitLoop_eq_stop hiter hgt] at hsome
    obtain ⟨rfl, rfl⟩ := by
      simpa using hsome
    refine ⟨[], [], by simp, by simp, rfl, by simp, by simp, ?_⟩
    intro h
    simp only [charSum_nil]
    omega
  | case3 A B lsum r sa sb r' hiter hle ih =>
    intro A' B' hsome
    rw [digitLoop_eq_continue hiter hle] at hsome
    obtain ⟨C, D, hA, hB, hlen, hCpred, hDpred, hbudget⟩ := ih A' B' hsome
    obtain ⟨hsa1, hsb1, hsahead, hsbhead⟩ := digitIter_inv hiter
    refine ⟨sa :: C, sb :: D, by simp [hA], by simp [hB], by simp [hlen], ?_, ?_, ?_⟩
    · intro s hs
      rcases List.mem_cons.mp hs with rfl | hs
      · exact ⟨hsa1, hsahead⟩
      · exact hCpred s hs
    · intro s hs
      rcases List.mem_cons.mp hs with rfl | hs
      · exact ⟨hsb1, hsbhead⟩
      · exact hDpred s hs
    · intro hll
      have h1 : lsum + (sa.length : Int) + sb.length ≤ SUM := by omega
      have h2 := hbudget h1
      rw [charSum_cons]
      push_cast
      push_cast at h2
      omega

/-! ## Helper lemmas: the tree-query generator -/

theorem drawVals_inv :
    ∀ {amax : Int} {count : Nat} {r : Random} {l : List Int} {r' : Random},
      drawVals amax count r = some (l, r') →
      l.length = count ∧ ∀ x ∈ l, 0 ≤ x ∧ x ≤ amax := by
  intro amax count
  induction count with
  | zero =>
    intro r l r' h
    simp only [drawVals, Option.some.injEq, Prod.mk.injEq] at h
    obtain ⟨rfl, -⟩ := h
    simp
  | succ k ih =>
    intro r l r' h
    rw [drawVals, Option.bind_eq_some] at h
    obtain ⟨xr, hx, h⟩ := h
    rw [Option.bind_eq_some] at h
    obtain ⟨lr, hl, h⟩ := h
    simp only [Option.some.injEq, Prod.mk.injEq] at h
    obtain ⟨rfl, -⟩ := h
    obtain ⟨hlen, hmem⟩ := ih hl
    refine ⟨by simp [hlen], ?_⟩
    intro x hx2
    rcases List.mem_cons.mp hx2 with rfl | hx2
    · exact ⟨(uniform_inv hx).2.1, (uniform_inv hx).2.2⟩
    · exact hmem x hx2

theorem drawVals_some (amax : Int) (ha : 0 ≤ amax) :
    ∀ (count : Nat) (r : Random), ∃ l r', drawVals amax count r = some (l, r') := by
  intro count
  induction count with
  | zero => intro r; exact ⟨[], r, rfl⟩
  | succ k ih =>
    intro r
    obtain ⟨x, r1, hx⟩ := uniform_some r ha
    obtain ⟨l, r2, hl⟩ := ih r1
    refine ⟨x :: l, r2, ?_⟩
    rw [drawVals, hx]
    simp [hl]

theorem drawQueries_inv :
    ∀ {n amax : Int} {count : Nat} {r : Random}
      {qs : List (Int × Int × Int)} {r' : Random},
      drawQueries n amax count r = some (qs, r') →
      qs.length = count ∧
      ∀ t ∈ qs, (t.1 = 0 ∨ t.1 = 1) ∧
        (t.1 = 0 → (0 ≤ t.2.1 ∧ t.2.1 ≤ n - 1) ∧ (0 ≤ t.2.2 ∧ t.2.2 ≤ amax)) ∧
        (t.1 = 1 → (0 ≤ t.2.1 ∧ t.2.1 ≤ n - 1) ∧ (0 ≤ t.2.2 ∧ t.2.2 ≤ n - 1)) := by
  intro n amax count
  induction count with
  | zero =>
    intro r qs r' h
    simp only [drawQueries, Option.some.injEq, Prod.mk.injEq] at h
    obtain ⟨rfl, -⟩ := h
    simp
  | succ k ih =>
    intro r qs r' h
    rw [drawQueries, Option.bind_eq_some] at h
    obtain ⟨tr, ht, h⟩ := h
    obtain ⟨-, ht0, ht1⟩ := uniform_inv ht
    split at h
    · rename_i htz
      rw [Option.bind_eq_some] at h
      obtain ⟨pr, hp, h⟩ := h
      rw [Option.bind_eq_some] at h
      obtain ⟨xr, hx, h⟩ := h
      rw [Option.bind_eq_some] at h
      obtain ⟨lr, hl, h⟩ := h
      simp only [Option.some.injEq, Prod.mk.injEq] at h
      obtain ⟨rfl, -⟩ := h
      obtain ⟨hlen, hmem⟩ := ih hl
      refine ⟨by simp [hlen], ?_⟩
      intro t htmem
      rcases List.mem_cons.mp htmem with rfl | htmem
      · refine ⟨Or.inl htz, fun _ => ?_, fun h1 => absurd (htz.symm.trans h1) (by norm_num)⟩
        exact ⟨⟨(uniform_inv hp).2.1, (uniform_inv hp).2.2⟩,
          ⟨(uniform_inv hx).2.1, (uniform_inv hx).2.2⟩⟩
      · exact hmem t htmem
    · rename_i htz
      rw [Option.bind_eq_some] at h
      obtain ⟨ur, hu, h⟩ := h
      rw [Option.bind_eq_some] at h
      obtain ⟨vr, hv, h⟩ := h
      rw [Option.bind_eq_some] at h
      obtain ⟨lr, hl, h⟩ := h
      simp only [Option.some.injEq, Prod.mk.injEq] at h
      obtain ⟨rfl, -⟩ := h
      obtain ⟨hlen, hmem⟩ := ih hl
      refine ⟨by simp [hlen], ?_⟩
      intro t htmem
      rcases List.mem_cons.mp htmem with rfl | htmem
      · refine ⟨Or.inr (by omega), fun h0 => absurd h0 htz, fun _ => ?_⟩
        exact ⟨⟨(uniform_inv hu).2.1, (uniform_inv hu).2.2⟩,
          ⟨(uniform_inv hv).2.1, (uniform_inv hv).2.2⟩⟩
      · exact hmem t htmem

theorem drawQueries_some (n amax : Int) (hn : 1 ≤ n) (ha : 0 ≤ amax) :
    ∀ (count : Nat) (r : Random),
      ∃ qs r', drawQueries n amax count r = some (qs, r') := by
  intro count
  induction count with
  | zero => intro r; exact ⟨[], r, rfl⟩
  | succ k ih =>
    intro r
    obtain ⟨t, r1, ht⟩ := uniform_some r (show (0 : Int) ≤ 1 by omega)
    by_cases htz : t = 0
    · obtain ⟨p, r2, hp⟩ := uniform_some r1 (show (0 : Int) ≤ n - 1 by omega)
      obtain ⟨x, r3, hx⟩ := uniform_some r2 ha
      obtain ⟨qs, r4, hqs⟩ := ih r3
      refine ⟨(t, p, x) :: qs, r4, ?_⟩
      rw [drawQueries, ht]
      simp only [Option.some_bind]
      rw [if_pos htz, hp]
      simp only [Option.some_bind]
      rw [hx]
      simp only [Option.some_bind]
      rw [hqs]
      rfl
    · obtain ⟨u, r2, hu⟩ := uniform_some r1 (show (0 : Int) ≤ n - 1 by omega)
      obtain ⟨v, r3, hv⟩ := uniform_some r2 (show (0 : Int) ≤ n - 1 by omega)
      obtain ⟨qs, r4, hqs⟩ := ih r3
      refine ⟨(t, u, v) :: qs, r4, ?_⟩
      rw [drawQueries, ht]
      simp only [Option.some_bind]
      rw [if_neg htz, hu]
      simp only [Option.some_bind]
      rw [hv]
      simp only [Option.some_bind]
      rw [hqs]
      rfl

/-- Inversion for `treeGen`: a successful run reports `n` and `q`
verbatim, its values are `n` draws in `[0, amax]`, its ghost list `p` is
a permutation of `0, …, n−1`, its edge list is position `i ↦
(p[i], p[i+1])` for `i < n − 1`, and its queries obey the query-loop
ranges. -/
theorem treeGen_inv {f : Nat → Nat} {n amax : Int} {out : TreeOut}
    {p : List Int} (h : treeGen f n amax = some (out, p)) :
    out.n = n ∧ out.q = n ∧
    out.vals.length = n.toNat ∧ (∀ x ∈ out.vals, 0 ≤ x ∧ x ≤ amax) ∧
    p.Perm ((List.range n.toNat).map fun i : Nat => (i : Int)) ∧
    out.edges = (List.range (n - 1).toNat).map
      (fun i : Nat => (p.getD i 0, p.getD (i + 1) 0)) ∧
    out.queries.length = n.toNat ∧
    (∀ t ∈ out.queries, (t.1 = 0 ∨ t.1 = 1) ∧
      (t.1 = 0 → (0 ≤ t.2.1 ∧ t.2.1 ≤ n - 1) ∧ (0 ≤ t.2.2 ∧ t.2.2 ≤ amax)) ∧
      (t.1 = 1 → (0 ≤ t.2.1 ∧ t.2.1 ≤ n - 1) ∧ (0 ≤ t.2.2 ∧ t.2.2 ≤ n - 1))) := by
  simp only [treeGen, Option.bind_eq_some, Option.some.injEq, Prod.mk.injEq] at h
  obtain ⟨⟨vals, r1⟩, hvals, mk1, hmk1, mk2, hmk2, ⟨p0, r2⟩, hperm, ⟨qs, r3⟩, hqs,
    hout, hp⟩ := h
  subst hp
  obtain ⟨hvlen, hvmem⟩ := drawVals_inv hvals
  have hpspec := perm_spec hperm
  obtain ⟨hqlen, hqmem⟩ := drawQueries_inv hqs
  have hedges : ((List.range ((n - 1).toNat)).map
        ((fun x : Int => p0.getD x.toNat 0) ∘ fun i : Nat => (i : Int))).zip
      ((List.range ((n - 1).toNat)).map
        ((fun x : Int => p0.getD x.toNat 0) ∘ fun i : Nat => (i : Int) + 1)) =
      (List.range (n - 1).toNat).map
        (fun i : Nat => (p0.getD i 0, p0.getD (i + 1) 0)) := by
    rw [List.zip_map']
    apply List.map_congr_left
    intro i hi
    have h1 : ((i : Int)).toNat = i := by omega
    have h2 : ((i : Int) + 1).toNat = i + 1 := by omega
    simp only [Function.comp_apply, h1, h2]
  rw [← hout]
  refine ⟨rfl, rfl, hvlen, hvmem, hpspec, ?_, hqlen, hqmem⟩
  simp only [List.map_map] at hedges ⊢
  exact hedges

theorem treeGen_some (f : Nat → Nat) (n amax : Int) (hn : 1 ≤ n)
    (ha : 0 ≤ amax) :
    ∃ out p, treeGen f n amax = some (out, p) := by
  obtain ⟨vals, r1, hvals⟩ := drawVals_some amax ha n.toNat (Random.init f)
  obtain ⟨p0, r2, hperm⟩ := perm_isSome n.toNat r1
  obtain ⟨qs, r3, hqs⟩ := drawQueries_some n amax hn ha n.toNat r2
  refine ⟨⟨n, n, vals,
    ((((List.range ((n - 1).toNat)).map fun i : Nat => (i : Int)).map
      fun x : Int => p0.getD x.toNat 0).zip
    (((List.range ((n - 1).toNat)).map fun i : Nat => (i : Int) + 1).map
      fun x : Int => p0.getD x.toNat 0)), qs⟩, p0, ?_⟩
  rw [treeGen]
  rw [hvals]
  simp only [Option.some_bind]
  rw [mkVec, if_pos (by omega : (0 : Int) ≤ n - 1)]
  simp only [Option.some_bind]
  rw [hperm]
  simp only [Option.some_bind]
  rw [hqs]
  simp only [Option.some_bind]

theorem treeGen_none_of_zero (f : Nat → Nat) (amax : Int) :
    treeGen f 0 amax = none := by
  rw [treeGen]
  have h0 : drawVals amax ((0 : Int)).toNat (Random.init f) =
      some ([], Random.init f) := rfl
  rw [h0]
  simp only [Option.some_bind]
  rw [mkVec, if_neg (by omega : ¬ (0 : Int) ≤ 0 - 1)]
  rfl

/-! ## Helper lemmas: path graphs and relabeling -/

/-- In a path graph, every walk from below an edge `u — v`
(`v = u + 1`) to above it must use that edge. -/
theorem pathGraph_walk_crosses {n : Nat} {u v : Fin n}
    (huv : (u : Nat) + 1 = (v : Nat)) :
    ∀ {x y : Fin n} (w : (SimpleGraph.pathGraph n).Walk x y),
      (x : Nat) ≤ (u : Nat) → (v : Nat) ≤ (y : Nat) → s(u, v) ∈ w.edges := by
  intro x y w
  induction w with
  | nil =>
    intro h1 h2
    exact (show False by omega).elim
  | cons hadj w' ih =>
    rename_i x0 c y0
    intro h1 h2
    rw [SimpleGraph.Walk.edges_cons]
    by_cases hc : (c : Nat) ≤ (u : Nat)
    · exact List.mem_cons_of_mem _ (ih hc h2)
    · rcases SimpleGraph.pathGraph_adj.mp hadj with h3 | h3
      · have hxu : x0 = u := Fin.ext (by omega)
        have hcv : c = v := Fin.ext (by omega)
        subst hxu
        subst hcv
        exact List.mem_cons_self _ _
      · exact (show False by omega).elim

/-- The path graph has no cycles: every edge of it is a bridge. -/
theorem pathGraph_isAcyclic (n : Nat) :
    (SimpleGraph.pathGraph n).IsAcyclic := by
  rw [SimpleGraph.isAcyclic_iff_forall_adj_isBridge]
  intro u v huv
  rw [SimpleGraph.isBridge_iff_adj_and_forall_walk_mem_edges]
  refine ⟨huv, fun w => ?_⟩
  rcases SimpleGraph.pathGraph_adj.mp huv with h | h
  · exact pathGraph_walk_crosses h w (le_refl _) (le_refl _)
  · have h2 := pathGraph_walk_crosses h w.reverse (le_refl _) (le_refl _)
    rw [SimpleGraph.Walk.edges_reverse, List.mem_reverse] at h2
    rw [Sym2.eq_swap]
    exact h2

/-- Relabeling the canonical path `0 — 1 — … — (n−1)` through a
permutation list `p` of `0, …, n−1` yields a tree: the emitted edge
list of `line.cpp` describes a connected acyclic graph. -/
theorem relabeledPath_isTree (n : Nat) (hn : 1 ≤ n) (p : List Int)
    (hp : p.Perm ((List.range n).map fun i : Nat => (i : Int))) :
    (edgeGraph n ((List.range (n - 1)).map
      fun i : Nat => (p.getD i 0, p.getD (i + 1) 0))).IsTree := by
  have hlen : p.length = n := by
    rw [hp.length_eq, List.length_map, List.length_range]
  have hmem : ∀ x ∈ p, ∃ k : Nat, k < n ∧ x = (k : Int) := by
    intro x hx
    have hx2 := hp.mem_iff.mp hx
    rw [List.mem_map] at hx2
    obtain ⟨k, hk, rfl⟩ := hx2
    exact ⟨k, List.mem_range.mp hk, rfl⟩
  have hbound : ∀ i : Nat, i < n → 0 ≤ p.getD i 0 ∧ p.getD i 0 < n := by
    intro i hi
    have hmemi : p.getD i 0 ∈ p := by
      rw [List.getD_eq_getElem p 0 (show i < p.length by omega)]
      exact List.getElem_mem _
    obtain ⟨k, hk, he⟩ := hmem _ hmemi
    omega
  have hnodup : p.Nodup := hp.nodup_iff.mpr
    (List.Nodup.map (fun a b hab => by exact_mod_cast hab) (List.nodup_range n))
  have hinj : ∀ i j : Nat, i < n → j < n → p.getD i 0 = p.getD j 0 → i = j := by
    intro i j hi hj hij
    rw [List.getD_eq_getElem p 0 (show i < p.length by omega),
      List.getD_eq_getElem p 0 (show j < p.length by omega)] at hij
    exact (List.Nodup.getElem_inj_iff hnodup).mp hij
  have hfin : ∀ i : Fin n, (p.getD i.val 0).toNat < n := by
    intro i
    have := hbound i.val i.isLt
    omega
  have hinjF : Function.Injective
      (fun i : Fin n => (⟨(p.getD i.val 0).toNat, hfin i⟩ : Fin n)) := by
    intro i j hij
    have h1 := hbound i.val i.isLt
    have h2 := hbound j.val j.isLt
    have h3 : (p.getD i.val 0).toNat = (p.getD j.val 0).toNat :=
      congrArg Fin.val hij
    exact Fin.ext (hinj _ _ i.isLt j.isLt (by omega))
  let e : Fin n ≃ Fin n :=
    Equiv.ofBijective _ (Finite.injective_iff_bijective.mp hinjF)
  have heval : ∀ i : Fin n, ((e i : Fin n) : Nat) = (p.getD i.val 0).toNat :=
    fun i => rfl
  have hevalInt : ∀ i : Fin n, (((e i : Fin n) : Nat) : Int) = p.getD i.val 0 := by
    intro i
    rw [heval]
    have := hbound i.val i.isLt
    omega
  have hadj : ∀ x y : Fin n,
      (edgeGraph n ((List.range (n - 1)).map
        fun i : Nat => (p.getD i 0, p.getD (i + 1) 0))).Adj (e x) (e y) ↔
      (SimpleGraph.pathGraph n).Adj x y := by
    intro x y
    rw [edgeGraph, SimpleGraph.fromRel_adj, SimpleGraph.pathGraph_adj]
    constructor
    · rintro ⟨hne, hrel | hrel⟩
      · rw [List.mem_map] at hrel
        obtain ⟨i, hi, hpair⟩ := hrel
        rw [List.mem_range] at hi
        rw [Prod.mk.injEq] at hpair
        obtain ⟨hp1, hp2⟩ := hpair
        have hx : (x : Nat) = i :=
          hinj _ _ x.isLt (by omega) (hp1.trans (hevalInt x)).symm
        have hy : (y : Nat) = i + 1 :=
          hinj _ _ y.isLt (by omega) (hp2.trans (hevalInt y)).symm
        omega
      · rw [List.mem_map] at hrel
        obtain ⟨i, hi, hpair⟩ := hrel
        rw [List.mem_range] at hi
        rw [Prod.mk.injEq] at hpair
        obtain ⟨hp1, hp2⟩ := hpair
        have hy : (y : Nat) = i :=
          hinj _ _ y.isLt (by omega) (hp1.trans (hevalInt y)).symm
        have hx : (x : Nat) = i + 1 :=
          hinj _ _ x.isLt (by omega) (hp2.trans (hevalInt x)).symm
        omega
    · intro hxy
      have hne : x ≠ y := by
        intro hcon
        subst hcon
        omega
      refine ⟨fun hcon => hne (e.injective hcon), ?_⟩
      rcases hxy with hxy | hxy
      · refine Or.inl ?_
        rw [List.mem_map]
        refine ⟨(x : Nat), List.mem_range.mpr (by omega), ?_⟩
        rw [Prod.mk.injEq]
        exact ⟨(hevalInt x).symm, by rw [hxy]; exact (hevalInt y).symm⟩
      · refine Or.inr ?_
        rw [List.mem_map]
        refine ⟨(y : Nat), List.mem_range.mpr (by omega), ?_⟩
        rw [Prod.mk.injEq]
        exact ⟨(hevalInt y).symm, by rw [hxy]; exact (hevalInt x).symm⟩
  have φ : SimpleGraph.pathGraph n ≃g
      edgeGraph n ((List.range (n - 1)).map
        fun i : Nat => (p.getD i 0, p.getD (i + 1) 0)) :=
    ⟨e, fun {x y} => hadj x y⟩
  constructor
  · obtain ⟨m, rfl⟩ : ∃ m, n = m + 1 := ⟨n - 1, by omega⟩
    exact (SimpleGraph.Iso.connected_iff φ).mp (SimpleGraph.pathGraph_connected m)
  · intro v c hc
    have hcyc : ((c.map φ.symm.toHom).IsCycle) :=
      (SimpleGraph.Walk.map_isCycle_iff_of_injective
        (fun a b hab => φ.symm.toEquiv.injective hab)).mpr hc
    exact pathGraph_isAcyclic n (c.map φ.symm.toHom) hcyc

/-- Entries of a permutation list of `0, …, n−1` lie in `[0, n)`. -/
theorem perm_getD_bounds {n : Nat} {p : List Int}
    (hp : p.Perm ((List.range n).map fun i : Nat => (i : Int)))
    (i : Nat) (hi : i < n) : 0 ≤ p.getD i 0 ∧ p.getD i 0 < n := by
  have hlen : p.length = n := by
    rw [hp.length_eq, List.length_map, List.length_range]
  have hmemi : p.getD i 0 ∈ p := by
    rw [List.getD_eq_getElem p 0 (show i < p.length by omega)]
    exact List.getElem_mem _
  have hx2 := hp.mem_iff.mp hmemi
  rw [List.mem_map] at hx2
  obtain ⟨k, hk, he⟩ := hx2
  rw [List.mem_range] at hk
  omega

/-- A list of nonempty lists has at least as many total elements as
entries. -/
theorem length_le_sum_lengths (C : List (List Int))
    (h : ∀ s ∈ C, 1 ≤ s.length) :
    C.length ≤ (C.map List.length).sum := by
  induction C with
  | nil => simp
  | cons a as ih =>
    simp only [List.map_cons, List.sum_cons, List.length_cons]
    have h1 := h a (List.mem_cons_self a as)
    have h2 := ih fun s hs => h s (List.mem_cons_of_mem a hs)
    omega

/-- A concrete run of the digit-pair generation used by the witnesses:
with the all-zeros engine stream, tier bound 10 and budget 5, two pairs
`("0", "1")` are accepted and the third candidate overflows the
budget.  (`digitLoop` is defined by well-founded recursion, so the run
is evaluated through the unfolding lemmas.) -/
theorem digitGen_concrete :
    digitGen (fun _ => 0) 10 5 = some ([[0], [0]], [[1], [1]]) := by
  have s0 : digitIter 10 (Random.init fun _ => 0) =
      some ([0], [1], (⟨fun _ => 0, 5⟩ : Random)) := rfl
  have s1 : digitIter 10 (⟨fun _ => 0, 5⟩ : Random) =
      some ([0], [1], (⟨fun _ => 0, 10⟩ : Random)) := rfl
  have s2 : digitIter 10 (⟨fun _ => 0, 10⟩ : Random) =
      some ([0], [1], (⟨fun _ => 0, 15⟩ : Random)) := rfl
  show digitLoop 5 10 [] [] 0 (Random.init fun _ => 0) = _
  rw [digitLoop_eq_continue s0 (by norm_num)]
  rw [digitLoop_eq_continue s1 (by norm_num)]
  rw [digitLoop_eq_stop s2 (by norm_num)]
  rfl

/-! ## The claims -/

/-- C1: for every engine stream, every limit `N_AND_Q_MAX = n ≥ 1` and
every value bound, the emitted edge lines of the Tree-Query Generator
form a connected acyclic graph (a tree) on the `n` vertices `Fin n`
with exactly `n − 1` edge lines; moreover edge `i` is emitted in
position `i` and joins `p[i]` to `p[i+1]`, where `p` is the drawn
permutation of `0, …, n−1` — so applying `p⁻¹` to every endpoint
recovers exactly the path whose edge `i` connects `i` to `i + 1`. -/
theorem treeGen_edges_form_tree (f : Nat → Nat) (n amax : Int)
    (out : TreeOut) (p : List Int) (hn : 1 ≤ n)
    (h : treeGen f n amax = some (out, p)) :
    out.edges.length = n.toNat - 1 ∧
    p.Perm ((List.range n.toNat).map fun i : Nat => (i : Int)) ∧
    (∀ i : Nat, i < n.toNat - 1 →
      out.edges.getD i (0, 0) = (p.getD i 0, p.getD (i + 1) 0)) ∧
    (edgeGraph n.toNat out.edges).IsTree := by
  obtain ⟨-, -, -, -, hperm, hedges, -, -⟩ := treeGen_inv h
  have hnn : (n - 1).toNat = n.toNat - 1 := by omega
  refine ⟨?_, hperm, ?_, ?_⟩
  · rw [hedges, List.length_map, List.length_range, hnn]
  · intro i hi
    rw [hedges]
    rw [List.getD_eq_getElem _ _
      (show i < ((List.range (n - 1).toNat).map
        (fun i : Nat => (p.getD i 0, p.getD (i + 1) 0))).length by
          rw [List.length_map, List.length_range]; omega)]
    rw [List.getElem_map, List.getElem_range]
  · rw [hedges, hnn]
    exact relabeledPath_isTree n.toNat (by omega) p hperm

theorem treeGen_edges_form_tree_witness :
    [((0 : Int), (1 : Int))].length = (2 : Int).toNat - 1 ∧
    List.Perm [(0 : Int), 1]
      ((List.range (2 : Int).toNat).map fun i : Nat => (i : Int)) ∧
    [((0 : Int), (1 : Int))].getD 0 (0, 0) =
      ([(0 : Int), 1].getD 0 0, [(0 : Int), 1].getD 1 0) ∧
    (edgeGraph (2 : Int).toNat [((0 : Int), (1 : Int))]).IsTree :=
  let H := treeGen_edges_form_tree (fun _ => 0) 2 5
    ⟨2, 2, [0, 0], [(0, 1)], [(0, 0, 0), (0, 0, 0)]⟩ [0, 1] (by decide) (by decide)
  ⟨H.1, H.2.1, H.2.2.1 0 (by decide), H.2.2.2⟩

/-- C2: for every engine stream, every tier bound and every budget, the
pairs emitted by the Bounded-Digit-Pair Generator have combined length
at most the budget, and a candidate whose lengths would push the
running total past the budget makes the loop return the already
accepted pairs unchanged (the candidate is discarded whole, not
truncated). -/
theorem digitGen_respects_budget (f : Nat → Nat) (upper : Int)
    (SUM : Nat) (A B : List (List Int))
    (h : digitGen f upper (SUM : Int) = some (A, B)) :
    charSum A B ≤ SUM ∧
    (∀ (A0 B0 : List (List Int)) (lsum : Int) (r : Random)
      (sa sb : List Int) (r' : Random),
      digitIter upper r = some (sa, sb, r') →
      (SUM : Int) < lsum + sa.length + sb.length →
      digitLoop (SUM : Int) upper A0 B0 lsum r = some (A0, B0)) := by
  constructor
  · obtain ⟨C, D, hA, hB, -, -, -, hbudget⟩ :=
      digitLoop_spec (SUM : Int) upper [] [] 0 (Random.init f) A B h
    have h2 := hbudget (by exact_mod_cast Nat.zero_le SUM)
    have hA' : A = C := by simpa using hA
    have hB' : B = D := by simpa using hB
    subst hA'
    subst hB'
    omega
  · intro A0 B0 lsum r sa sb r' hiter hgt
    exact digitLoop_eq_stop hiter hgt

theorem digitGen_respects_budget_witness :
    charSum [[(0 : Int)], [0]] [[(1 : Int)], [1]] ≤ 5 ∧
    digitLoop ((5 : Nat) : Int) 10 [] [] 4 (Random.init fun _ => 0) =
      some ([], []) :=
  let H := digitGen_respects_budget (fun _ => 0) 10 5
    [[0], [0]] [[1], [1]] digitGen_concrete
  ⟨H.1, H.2 [] [] 4 (Random.init fun _ => 0) [0] [1]
    ⟨fun _ => 0, 5⟩ rfl (by norm_num)⟩

/-- C3: each generator's output is a function of its seed (and the
fixed limit constants) alone: equal seeds give identical outputs. -/
theorem generators_deterministic (s₁ s₂ n amax SUM : Int) (h : s₁ = s₂) :
    treeMain s₁ n amax = treeMain s₂ n amax ∧
    digitMain s₁ SUM = digitMain s₂ SUM := by
  subst h
  exact ⟨rfl, rfl⟩

theorem generators_deterministic_witness :
    treeMain 7 2 5 = treeMain 7 2 5 ∧ digitMain 7 9 = digitMain 7 9 :=
  generators_deterministic 7 7 2 5 9 rfl

/-- C4: every accepted pair has `B` nonempty with leading digit in
`[1, 9]` (never a leading zero, so `B` is never zero), and `A` nonempty
with a leading zero possible only when `A` is a single digit. -/
theorem digitGen_digit_shape (f : Nat → Nat) (upper SUM : Int)
    (A B : List (List Int)) (h : digitGen f upper SUM = some (A, B)) :
    (∀ b ∈ B, 1 ≤ b.length ∧ 1 ≤ b.headD 0) ∧
    (∀ a ∈ A, 1 ≤ a.length ∧ (a.headD 0 = 0 → a.length = 1)) := by
  obtain ⟨C, D, hA, hB, -, hC, hD, -⟩ :=
    digitLoop_spec SUM upper [] [] 0 (Random.init f) A B h
  have hA' : A = C := by simpa using hA
  have hB' : B = D := by simpa using hB
  subst hA'
  subst hB'
  constructor
  · exact hD
  · intro a ha
    obtain ⟨h1, h2⟩ := hC a ha
    refine ⟨h1, fun hz => ?_⟩
    by_contra hne
    have h3 : 2 ≤ a.length := by omega
    have h4 := h2 h3
    omega

theorem digitGen_digit_shape_witness :
    (1 ≤ [(1 : Int)].length ∧ 1 ≤ [(1 : Int)].headD 0) ∧
    (1 ≤ [(0 : Int)].length ∧ ([(0 : Int)].headD 0 = 0 → [(0 : Int)].length = 1)) :=
  let H := digitGen_digit_shape (fun _ => 0) 10 5 [[0], [0]] [[1], [1]]
    digitGen_concrete
  ⟨H.1 [1] (by decide), H.2 [0] (by decide)⟩

/-- C5 (counterexample): the claim quantifies over every 64-bit seed,
but for the negative seed `−1` the C++ expression `seed % 3` is `−1`
(truncated division), so `vector{10, 300, 10000}[seed % 3]` indexes out
of bounds and the tier lookup does not produce any table value. -/
theorem digitTier_neg_seed_counterexample : digitTier (-1) = none := by
  decide

/-- C5 (amended): for every *nonnegative* seed the tier lookup
`{10, 300, 10000}[seed % 3]` succeeds and yields one of the three table
values, the same one on every run with that seed, and every tier is
reached (by seeds 0, 1 and 2 respectively). -/
theorem digitTier_amended (seed : Int) (h : 0 ≤ seed) :
    (digitTier seed = some 10 ∨ digitTier seed = some 300 ∨
      digitTier seed = some 10000) ∧
    digitTier 0 = some 10 ∧ digitTier 1 = some 300 ∧
    digitTier 2 = some 10000 := by
  refine ⟨?_, by decide, by decide, by decide⟩
  have ht : Int.tmod seed 3 = 0 ∨ Int.tmod seed 3 = 1 ∨ Int.tmod seed 3 = 2 := by
    have := Int.tmod_eq_emod h (show (0 : Int) ≤ 3 by omega)
    omega
  rcases ht with h0 | h0 | h0
  · exact Or.inl (by rw [digitTier, h0]; decide)
  · exact Or.inr (Or.inl (by rw [digitTier, h0]; decide))
  · exact Or.inr (Or.inr (by rw [digitTier, h0]; decide))

theorem digitTier_amended_witness :
    (digitTier 7 = some 10 ∨ digitTier 7 = some 300 ∨
      digitTier 7 = some 10000) ∧
    digitTier 0 = some 10 ∧ digitTier 1 = some 300 ∧
    digitTier 2 = some 10000 :=
  digitTier_amended 7 (by decide)

/-- C6 (counterexample): with `N_AND_Q_MAX = 0` the Tree-Query
Generator does *not* complete: `vector<int> u(n - 1)` converts `−1` to
an enormous `size_t` and construction fails, so the run produces no
output (here at seed 0). -/
theorem treeGen_zero_counterexample : treeMain 0 0 5 = none := by
  rfl

/-- C6 (amended): with `N_AND_Q_MAX = 0` the generator fails at the
edge-vector construction (it does not succeed with zero edges); for
every `N_AND_Q_MAX ≥ 1` (and a nonnegative value bound) it completes
without error. -/
theorem treeGen_zero_amended (f : Nat → Nat) (n amax : Int) :
    (n = 0 → treeGen f n amax = none) ∧
    (1 ≤ n → 0 ≤ amax → (treeGen f n amax).isSome = true) := by
  constructor
  · rintro rfl
    exact treeGen_none_of_zero f amax
  · intro hn ha
    obtain ⟨out, p, hout⟩ := treeGen_some f n amax hn ha
    rw [hout]
    rfl

theorem treeGen_zero_amended_witness :
    treeGen (fun _ => 0) 0 5 = none ∧
    (treeGen (fun _ => 0) 2 5).isSome = true :=
  ⟨(treeGen_zero_amended (fun _ => 0) 0 5).1 rfl,
    (treeGen_zero_amended (fun _ => 0) 2 5).2 (by decide) (by decide)⟩

/-- C7: with valid limit constants (`N_AND_Q_MAX ≥ 1`,
`A_AND_X_MAX ≥ 0`, a positive tier bound) every `uniform` call of both
generators has `lo ≤ hi`, so the `InvalidRangeError` branch is
unreachable and both runs succeed. -/
theorem no_invalid_range (f : Nat → Nat) (n amax upper SUM : Int)
    (hn : 1 ≤ n) (ha : 0 ≤ amax) (hu : 1 ≤ upper) :
    (treeGen f n amax).isSome = true ∧
    (digitGen f upper SUM).isSome = true := by
  constructor
  · obtain ⟨out, p, hout⟩ := treeGen_some f n amax hn ha
    rw [hout]
    rfl
  · obtain ⟨A, B, hAB⟩ := digitLoop_isSome SUM upper hu [] [] 0 (Random.init f)
    rw [show digitGen f upper SUM = digitLoop SUM upper [] [] 0 (Random.init f)
      from rfl, hAB]
    rfl

theorem no_invalid_range_witness :
    (treeGen (fun _ => 0) 2 5).isSome = true ∧
    (digitGen (fun _ => 0) 10 5).isSome = true :=
  no_invalid_range (fun _ => 0) 2 5 10 5 (by decide) (by decide) (by decide)

/-- C8: every value on the second output line lies in
`[0, A_AND_X_MAX]`, every update value `x` lies in `[0, A_AND_X_MAX]`,
and every vertex index appearing in an edge line, an update (`p`) or a
path query (`u`, `v`) lies in `[0, N)`. -/
theorem treeGen_ranges (f : Nat → Nat) (n amax : Int) (out : TreeOut)
    (p : List Int) (hn : 1 ≤ n) (h : treeGen f n amax = some (out, p)) :
    (∀ x ∈ out.vals, 0 ≤ x ∧ x ≤ amax) ∧
    (∀ e ∈ out.edges, (0 ≤ e.1 ∧ e.1 < n) ∧ (0 ≤ e.2 ∧ e.2 < n)) ∧
    (∀ t ∈ out.queries,
      (t.1 = 0 → (0 ≤ t.2.1 ∧ t.2.1 < n) ∧ (0 ≤ t.2.2 ∧ t.2.2 ≤ amax)) ∧
      (t.1 = 1 → (0 ≤ t.2.1 ∧ t.2.1 < n) ∧ (0 ≤ t.2.2 ∧ t.2.2 < n))) := by
  obtain ⟨-, -, -, hvals, hperm, hedges, -, hqs⟩ := treeGen_inv h
  refine ⟨hvals, ?_, ?_⟩
  · intro e he
    rw [hedges, List.mem_map] at he
    obtain ⟨i, hi, rfl⟩ := he
    rw [List.mem_range] at hi
    have hb1 := perm_getD_bounds hperm i (by omega)
    have hb2 := perm_getD_bounds hperm (i + 1) (by omega)
    constructor
    · constructor
      · exact hb1.1
      · have := hb1.2; omega
    · constructor
      · exact hb2.1
      · have := hb2.2; omega
  · intro t ht
    obtain ⟨-, h0, h1⟩ := hqs t ht
    refine ⟨fun hz => ?_, fun hz => ?_⟩
    · obtain ⟨⟨a1, a2⟩, ⟨b1, b2⟩⟩ := h0 hz
      exact ⟨⟨a1, by omega⟩, ⟨b1, b2⟩⟩
    · obtain ⟨⟨a1, a2⟩, ⟨b1, b2⟩⟩ := h1 hz
      exact ⟨⟨a1, by omega⟩, ⟨b1, by omega⟩⟩

theorem treeGen_ranges_witness :
    (0 ≤ (0 : Int) ∧ (0 : Int) ≤ 5) ∧
    ((0 ≤ (0 : Int) ∧ (0 : Int) < 2) ∧ (0 ≤ (1 : Int) ∧ (1 : Int) < 2)) ∧
    ((0 ≤ (0 : Int) ∧ (0 : Int) < 2) ∧ (0 ≤ (0 : Int) ∧ (0 : Int) ≤ 5)) :=
  let H := treeGen_ranges (fun _ => 0) 2 5
    ⟨2, 2, [0, 0], [(0, 1)], [(0, 0, 0), (0, 0, 0)]⟩ [0, 1] (by decide) (by decide)
  ⟨H.1 0 (by decide), H.2.1 (0, 1) (by decide),
    (H.2.2 (0, 0, 0) (by decide)).1 rfl⟩

/-- C9: for every engine stream, tier bound `≥ 1` and budget, the
generation loop of the Bounded-Digit-Pair Generator terminates with a
defined result (its Lean embedding is total and returns `some`), and
every iteration adds at least `2` to the running character total
(`|A| ≥ 1` and `|B| ≥ 1`), which is what drives the budget check to
trigger. -/
theorem digitGen_terminates (f : Nat → Nat) (upper SUM : Int)
    (hu : 1 ≤ upper) :
    (digitGen f upper SUM).isSome = true ∧
    (∀ (r : Random) (sa sb : List Int) (r' : Random),
      digitIter upper r = some (sa, sb, r') → 2 ≤ sa.length + sb.length) := by
  constructor
  · obtain ⟨A, B, hAB⟩ := digitLoop_isSome SUM upper hu [] [] 0 (Random.init f)
    rw [show digitGen f upper SUM = digitLoop SUM upper [] [] 0 (Random.init f)
      from rfl, hAB]
    rfl
  · intro r sa sb r' hiter
    obtain ⟨h1, h2, -, -⟩ := digitIter_inv hiter
    omega

theorem digitGen_terminates_witness :
    (digitGen (fun _ => 0) 10 5).isSome = true ∧
    2 ≤ [(0 : Int)].length + [(1 : Int)].length :=
  let H := digitGen_terminates (fun _ => 0) 10 5 (by decide)
  ⟨H.1, H.2 (Random.init fun _ => 0) [0] [1] ⟨fun _ => 0, 5⟩ rfl⟩

/-- C10: the number of emitted pairs (the count printed on the first
line is `A.length`) is at most half the budget, since every accepted
pair contributes at least two characters. -/
theorem digitGen_count_bound (f : Nat → Nat) (upper : Int) (SUM : Nat)
    (A B : List (List Int))
    (h : digitGen f upper (SUM : Int) = some (A, B)) :
    A.length ≤ SUM / 2 := by
  obtain ⟨C, D, hA, hB, hlen, hC, hD, hbudget⟩ :=
    digitLoop_spec (SUM : Int) upper [] [] 0 (Random.init f) A B h
  have hA' : A = C := by simpa using hA
  have hB' : B = D := by simpa using hB
  subst hA'
  subst hB'
  have h1 := length_le_sum_lengths A fun s hs => (hC s hs).1
  have h2 := length_le_sum_lengths B fun s hs => (hD s hs).1
  have h3 := hbudget (by exact_mod_cast Nat.zero_le SUM)
  simp only [charSum] at h3
  omega

theorem digitGen_count_bound_witness :
    [[(0 : Int)], [0]].length ≤ 5 / 2 :=
  digitGen_count_bound (fun _ => 0) 10 5 [[0], [0]] [[1], [1]] digitGen_concrete

end LCGen
